import Mathlib

/-!
Verification of the Venachain miner worker, eth peer set and VM return-value
encoding against their natural-language specification.

The Go sources are shallowly embedded: machine integers become Nat/Int,
byte strings become List Nat, maps become association lists, and the
external collaborators of the worker (EVM transaction application, consensus
engine seal-hashing, chain lookup) become explicit function parameters.
Stateful loops are embedded as explicit state-passing recursions.
-/

/- ### Transaction execution loop of the worker (miner/worker.go) -/

/-- Error classes distinguished by the switch in
`worker.commitTransactionsWithHeader` (core.ErrGasLimitReached,
core.ErrNonceTooLow, core.ErrNonceTooHigh, and any other error). -/
inductive TxErr
  | gasLimitReached
  | nonceTooLow
  | nonceTooHigh
  | other
  deriving DecidableEq, Repr

/-- A pending transaction, reduced to the fields the worker loop inspects:
its sender account and its nonce. -/
structure Tx where
  sender : Nat
  nonce : Nat
  deriving DecidableEq, Repr

/-- One account's nonce-ordered queue inside the pending set; the queue of an
account present in the set is never empty (`first` is its current best
transaction, `rest` the rest in nonce order). -/
structure AccountTxs where
  account : Nat
  first : Tx
  rest : List Tx
  deriving DecidableEq, Repr

/-- Modelled from the spec: `types.TransactionsByPriceAndNonce` is not under
src/. The spec describes it as a per-account queue structure consumed via
Peek (current best transaction), Shift (advance within the account's queue:
"nonce-too-low → skip (advance within account queue)") and Pop ("drop entire
account's remaining queue"). We model it as a list of per-account queues. -/
abbrev TxQueues := List AccountTxs

/-- Modelled from the spec: Peek returns the current best pending
transaction, or none when the set is exhausted. -/
def txqPeek : TxQueues → Option Tx
  | [] => none
  | q :: _ => some q.first

/-- Modelled from the spec: Shift replaces the current best transaction with
the next one from the same account's queue, dropping the account once its
queue is exhausted. -/
def txqShift : TxQueues → TxQueues
  | [] => []
  | q :: qs =>
    match q.rest with
    | [] => qs
    | t :: ts => { account := q.account, first := t, rest := ts } :: qs

/-- Modelled from the spec: Pop drops the current best transaction together
with the entire remaining queue of its account. -/
def txqPop : TxQueues → TxQueues
  | [] => []
  | _ :: qs => qs

/-- All transactions held in the pending set. -/
def txqAllTxs (txs : TxQueues) : List Tx :=
  txs.flatMap (fun q => q.first :: q.rest)

/-- Number of transactions held in the pending set. -/
def txqLen (txs : TxQueues) : Nat :=
  (txs.map (fun q => q.rest.length + 1)).sum

/-- Well-formedness of the pending set: every queued transaction is from the
queue's own account, and accounts are pairwise distinct. -/
def txqWF (txs : TxQueues) : Prop :=
  (∀ q ∈ txs, q.first.sender = q.account ∧ ∀ t ∈ q.rest, t.sender = q.account)
  ∧ txs.Pairwise (fun a b => a.account ≠ b.account)

instance (txs : TxQueues) : Decidable (txqWF txs) := by
  unfold txqWF; infer_instance

/-- Outcome of `core.ApplyTransaction` as observed by the worker loop: either
success or one of the distinguished errors, in both cases together with the
amount of gas the call consumed from the shared gas pool. -/
inductive ApplyRes
  | ok (gasUsed : Nat)
  | fail (e : TxErr) (gasUsed : Nat)
  deriving DecidableEq, Repr

/-- Gas consumed from the pool by an application outcome. -/
def ApplyRes.gas : ApplyRes → Nat
  | .ok g => g
  | .fail _ g => g

/-- Resubmit-interval adjustment message (`intervalAdjust` in worker.go);
the float64 ratio is embedded as a rational. -/
structure IntervalAdjust where
  ratio : ℚ
  inc : Bool
  deriving DecidableEq

/-- Interrupt flag value `commitInterruptNone`. -/
def commitInterruptNone : Nat := 0

/-- Interrupt flag value `commitInterruptNewHead`. -/
def commitInterruptNewHead : Nat := 1

/-- Interrupt flag value `commitInterruptResubmit`. -/
def commitInterruptResubmit : Nat := 2

/-- Modelled from the spec: `params.TxGas` (not under src/) is the minimum
cost of any transaction; the loop stops when the pool falls below it. -/
def TxGas : Nat := 21000

/-- The worker's current environment as used by the transaction loop, plus
the observable outputs of the loop: the remaining gas pool, the committed
transactions (`env.txs`), the trace of attempted transactions with their
outcomes, and the interval adjustments sent on `resubmitAdjustCh`. -/
structure CommitEnv where
  gasPool : Nat
  txs : List Tx
  attempted : List (Tx × ApplyRes)
  adjusts : List IntervalAdjust
  deriving DecidableEq

/-- Value read from the shared atomic interrupt flag at a given loop
iteration; a nil interrupt pointer reads as `commitInterruptNone` (the
branch guarded by `interrupt != nil` is then not taken, as in the source). -/
def flagAt (interrupt? : Option (Nat → Nat)) (iter : Nat) : Nat :=
  match interrupt? with
  | none => commitInterruptNone
  | some f => f iter

/-- Ratio sent with the resubmit-interrupt adjustment:
`(GasLimit - gasPool) / GasLimit`, floored at 0.1 (worker.go lines
696-699). -/
def resubmitRatio (gasLimit gasPool : Nat) : ℚ :=
  let r : ℚ := ((gasLimit - gasPool : Nat) : ℚ) / (gasLimit : ℚ)
  if r < 1 / 10 then 1 / 10 else r

/-- End of the loop reached via `break` (gas exhausted or no transaction
left): when the interrupt pointer is non-nil a decrease adjustment is sent,
and the function returns false (worker.go lines 776-781). -/
def commitFinish (interrupt? : Option (Nat → Nat)) (env : CommitEnv) :
    Bool × CommitEnv :=
  if interrupt?.isSome then
    (false, { env with adjusts := env.adjusts ++ [⟨0, false⟩] })
  else
    (false, env)

/-- Pending-set update chosen by the error switch of the loop (worker.go
lines 730-758): success, nonce-too-low and unclassified errors Shift;
gas-limit-reached and nonce-too-high Pop. -/
def nextQueues (res : ApplyRes) (txs : TxQueues) : TxQueues :=
  match res with
  | .ok _ => txqShift txs
  | .fail .gasLimitReached _ => txqPop txs
  | .fail .nonceTooLow _ => txqShift txs
  | .fail .nonceTooHigh _ => txqPop txs
  | .fail .other _ => txqShift txs

/-- Environment update for one attempted transaction: the gas pool shrinks
by the gas the application consumed, the attempt is recorded, and on success
the transaction is appended to `env.txs` (state changes of failed
transactions are reverted to the snapshot, so only the pool moves). -/
def nextEnv (res : ApplyRes) (tx : Tx) (env : CommitEnv) : CommitEnv :=
  let env' := { env with gasPool := env.gasPool - res.gas,
                         attempted := env.attempted ++ [(tx, res)] }
  match res with
  | .ok _ => { env' with txs := env'.txs ++ [tx] }
  | .fail _ _ => env'

/-- The main loop of `worker.commitTransactionsWithHeader` (worker.go lines
686-781). Each iteration: read the interrupt flag and return early when it
is set (sending an increase adjustment in the resubmit case); break when the
pool is below `TxGas`; break when no transaction is pending; otherwise apply
the best transaction through the `apply` oracle (standing for
`core.ApplyTransaction` on the current state) and dispatch on its outcome.
`fuel` bounds the recursion; every iteration consumes a transaction, so any
fuel above `txqLen` is exact. The pending-logs event posting is not
modelled (it writes no worker state the claims mention). -/
def commitLoop (gasLimit : Nat) (apply : List Tx → Nat → Tx → ApplyRes)
    (interrupt? : Option (Nat → Nat)) :
    Nat → Nat → TxQueues → CommitEnv → Bool × CommitEnv
  | 0, _, _, env => (false, env)
  | fuel + 1, iter, txs, env =>
    if flagAt interrupt? iter ≠ commitInterruptNone then
      let env' :=
        if flagAt interrupt? iter = commitInterruptResubmit then
          { env with adjusts :=
              env.adjusts ++ [⟨resubmitRatio gasLimit env.gasPool, true⟩] }
        else env
      (decide (flagAt interrupt? iter = commitInterruptNewHead), env')
    else if env.gasPool < TxGas then
      commitFinish interrupt? env
    else
      match txqPeek txs with
      | none => commitFinish interrupt? env
      | some tx =>
        let res := apply env.txs env.gasPool tx
        commitLoop gasLimit apply interrupt? fuel (iter + 1)
          (nextQueues res txs) (nextEnv res tx env)

/-- Entry point of `commitTransactionsWithHeader` for a fresh cycle: the gas
pool is initialised to the header's gas limit, and nothing has been
committed, attempted or sent yet. -/
def commitTransactionsWithHeader (gasLimit : Nat)
    (apply : List Tx → Nat → Tx → ApplyRes)
    (interrupt? : Option (Nat → Nat)) (txs : TxQueues) : Bool × CommitEnv :=
  commitLoop gasLimit apply interrupt? (txqLen txs + 1) 0 txs
    { gasPool := gasLimit, txs := [], attempted := [], adjusts := [] }

/- ### clearPending (miner/worker.go newWorkLoop) -/

/-- The maximum depth of an acceptable stale block (worker.go line 75). -/
def staleThreshold : Nat := 7

/-- The pending-task table reduced to what `clearPending` inspects: each
entry is a seal-hash together with the task's block number. `clearPending`
deletes every task whose block number plus `staleThreshold` does not exceed
the current chain-head number (worker.go lines 361-369). -/
def clearPending (number : Nat) (tasks : List (Nat × Nat)) : List (Nat × Nat) :=
  tasks.filter (fun ht => if ht.2 + staleThreshold ≤ number then false else true)

/- ### resultLoop (miner/worker.go) -/

/-- A receipt log, keeping the `BlockHash` field the result loop patches and
an opaque payload standing for all other fields. -/
structure LogM where
  blockHash : Nat
  payload : Nat
  deriving DecidableEq, Repr

/-- A receipt: its list of logs. -/
structure ReceiptM where
  logs : List LogM
  deriving DecidableEq, Repr

/-- A pending task as the result loop uses it: its receipts. -/
structure TaskR where
  receipts : List ReceiptM
  deriving DecidableEq, Repr

/-- A sealed block as the result loop uses it: its hash and number. -/
structure BlockR where
  hash : Nat
  number : Nat
  deriving DecidableEq, Repr

/-- Update of the task's receipts performed before writing: the block hash
is stored into every log of every receipt (worker.go lines 573-582). -/
def patchReceipts (h : Nat) (rs : List ReceiptM) : List ReceiptM :=
  rs.map (fun r => { logs := r.logs.map (fun l => { l with blockHash := h }) })

/-- One round of `worker.resultLoop` (worker.go lines 546-584) for a block
received on the result channel, up to the `WriteBlockWithState` call. The
return value is the pair handed to `WriteBlockWithState` (block and
receipts), or none when the block is dropped before anything is written.
`sealHashOf` stands for `engine.SealHash`, `hasBlock` for
`chain.HasBlock`. -/
def handleResult (sealHashOf : BlockR → Nat) (hasBlock : Nat → Nat → Bool)
    (pending : List (Nat × TaskR)) (block? : Option BlockR) :
    Option (BlockR × List ReceiptM) :=
  match block? with
  | none => none
  | some block =>
    if hasBlock block.hash block.number then none
    else
      match pending.lookup (sealHashOf block) with
      | none => none
      | some task => some (block, patchReceipts block.hash task.receipts)

/- ### taskLoop (miner/worker.go) -/

/-- A sealing task as the task loop uses it: the seal-hash of its block and
the number of transactions the block contains. -/
structure SealTask where
  sealHash : Nat
  txCount : Nat
  deriving DecidableEq, Repr

/-- Task-loop state: the seal-hash of the previously handled task, the
pending-task table, and the seal-hashes submitted to `engine.Seal` in
order. -/
structure TaskLoopState where
  prev : Option Nat
  pending : List (Nat × SealTask)
  sealed : List Nat
  deriving DecidableEq, Repr

/-- One round of `worker.taskLoop` (worker.go lines 496-532, test hooks nil):
a task whose seal-hash equals the previous one is skipped entirely;
otherwise `prev` is updated, the task is registered in the pending table
exactly when its block is non-empty or empty-block production is configured
on (`common.SysCfg.IsProduceEmptyBlock`), and the block is submitted to
`engine.Seal`. -/
def taskLoopStep (produceEmpty : Bool) (st : TaskLoopState) (t : SealTask) :
    TaskLoopState :=
  if some t.sealHash = st.prev then st
  else
    let st1 : TaskLoopState := { st with prev := some t.sealHash }
    let st2 : TaskLoopState :=
      if t.txCount != 0 || produceEmpty then
        { st1 with pending := (t.sealHash, t) :: st1.pending }
      else st1
    { st2 with sealed := st2.sealed ++ [t.sealHash] }

/-- The task loop over a finite list of received tasks. -/
def taskLoopRun (produceEmpty : Bool) (st : TaskLoopState)
    (tasks : List SealTask) : TaskLoopState :=
  tasks.foldl (taskLoopStep produceEmpty) st

/- ### recalcRecommit (miner/worker.go newWorkLoop) -/

/-- `intervalAdjustRatio` (worker.go line 68), embedded as a rational. -/
def intervalAdjustRatioQ : ℚ := 1 / 10

/-- `intervalAdjustBias` in nanoseconds (worker.go line 72). -/
def intervalAdjustBiasQ : ℚ := 200000000

/-- `maxRecommitInterval` in nanoseconds (worker.go line 64). -/
def maxRecommitNs : ℚ := 15000000000

/-- `recalcRecommit` (worker.go lines 340-359): exponential moving average
of the recommit interval with impact `intervalAdjustRatio`, recapped at
`maxRecommitInterval` when increasing and at the user-specified minimum when
decreasing. All durations are in nanoseconds, float64 arithmetic embedded
as rationals. -/
def recalcRecommit (minRecommitNs prev target : ℚ) (inc : Bool) : ℚ :=
  if inc then
    let next := prev * (1 - intervalAdjustRatioQ)
      + intervalAdjustRatioQ * (target + intervalAdjustBiasQ)
    if next > maxRecommitNs then maxRecommitNs else next
  else
    let next := prev * (1 - intervalAdjustRatioQ)
      + intervalAdjustRatioQ * (target - intervalAdjustBiasQ)
    if next < minRecommitNs then minRecommitNs else next

/- ### commitNewWork header construction (miner/worker.go) -/

/-- The current chain-head block as `commitNewWork` uses it. -/
structure ParentBlock where
  hash : Nat
  number : Nat
  time : Int
  deriving DecidableEq, Repr

/-- The candidate header assembled by `commitNewWork`. -/
structure CandidateHeader where
  parentHash : Nat
  number : Nat
  gasLimit : Nat
  time : Int
  deriving DecidableEq, Repr

/-- Header construction in `worker.commitNewWork` (worker.go lines 791-815):
the parent is the current chain head; for a non-Istanbul engine only, a
requested timestamp not exceeding the parent's is bumped to parent time plus
one (and the goroutine sleeps when the timestamp runs more than one second
ahead of the wall clock, which leaves the timestamp itself unchanged); the
header takes the parent's hash, the parent's number plus one, and the gas
limit computed by `calcGasLimit`, a parameter standing for
`core.CalcGasLimit` (not under src/). -/
def commitNewWorkHeader (isIstanbul : Bool) (calcGasLimit : ParentBlock → Nat)
    (parent : ParentBlock) (timestamp : Int) : CandidateHeader :=
  let ts := if isIstanbul then timestamp
            else if timestamp ≤ parent.time then parent.time + 1 else timestamp
  { parentHash := parent.hash
    number := parent.number + 1
    gasLimit := calcGasLimit parent
    time := ts }

/- ### peerSet (eth peer management, src/unnamed/part_000) -/

/-- The three peer-set errors (part_000 lines 36-40). -/
inductive PeerSetErr
  | errClosed
  | errAlreadyRegistered
  | errNotRegistered
  deriving DecidableEq, Repr

/-- A peer set: registered peers as an association list from peer id to an
opaque peer value, plus the closed flag. -/
structure PeerSet where
  peers : List (Nat × Nat)
  closed : Bool
  deriving DecidableEq, Repr

/-- `peerSet.Register` (part_000 lines 576-590): fails with `errClosed` on a
closed set, with `errAlreadyRegistered` when the id is present, otherwise
inserts the peer. The imperative error returns leave the map untouched, so
the state is returned alongside the optional error. -/
def psRegister (ps : PeerSet) (id pdata : Nat) : Option PeerSetErr × PeerSet :=
  if ps.closed then (some .errClosed, ps)
  else if (ps.peers.lookup id).isSome then (some .errAlreadyRegistered, ps)
  else (none, { ps with peers := (id, pdata) :: ps.peers })

/-- `peerSet.Unregister` (part_000 lines 594-606): fails with
`errNotRegistered` when the id is absent, otherwise deletes the entry (and
closes the peer's broadcast loop, outside this model). -/
def psUnregister (ps : PeerSet) (id : Nat) : Option PeerSetErr × PeerSet :=
  if (ps.peers.lookup id).isSome then
    (none, { ps with peers := ps.peers.filter (fun e => e.1 != id) })
  else (some .errNotRegistered, ps)

/-- `peerSet.Close` (part_000 lines 715-723): disconnects every peer (a p2p
side effect outside this model) and sets the closed flag. -/
def psClose (ps : PeerSet) : PeerSet :=
  { ps with closed := true }

/- ### MakeReturnBytes (core/vm/util.go) -/

/-- Modelled from the spec: `common.Int32ToBytes` / `common.Int64ToBytes`
(not under src/) write the integer big-endian into a fixed number of bytes.
`beBytes w n` is the big-endian `w`-byte encoding of `n` (truncated modulo
`256 ^ w`). -/
def beBytes : Nat → Nat → List Nat
  | 0, _ => []
  | w + 1, n => beBytes w (n / 256) ++ [n % 256]

/-- Big-endian value of a byte string. -/
def decodeBE (bs : List Nat) : Nat :=
  bs.foldl (fun a b => a * 256 + b) 0

/-- Modelled from the spec: `common.BytesToHash` (not under src/) sets a
32-byte hash from the bytes, left-padding with zeros (and keeping the last
32 bytes when longer). -/
def bytesToHash (bs : List Nat) : List Nat :=
  if bs.length ≤ 32 then List.replicate (32 - bs.length) 0 ++ bs
  else bs.drop (bs.length - 32)

/-- `MakeReturnBytes` (core/vm/util.go lines 51-68): the data buffer is the
input zero-padded up to the next multiple of 32 bytes, prefixed by the hash
of the 4-byte encoding of the constant 32 and the hash of the 8-byte
encoding of the input length. -/
def MakeReturnBytes (ret : List Nat) : List Nat :=
  let dataRealSize :=
    if ret.length % 32 ≠ 0 then ret.length + (32 - ret.length % 32)
    else ret.length
  let dataByt := ret ++ List.replicate (dataRealSize - ret.length) 0
  bytesToHash (beBytes 4 32) ++ bytesToHash (beBytes 8 ret.length) ++ dataByt

/-! ## Theorems -/

/-- C3: after `clearPending` runs with current chain-head number `n`, a task
remains in the pending-task table if and only if it was there before and its
block number plus the stale threshold 7 exceeds `n`: every task with block
number at most `n - 7` is removed and no other task is removed. -/
theorem clearPending_mem_iff (n : Nat) (tasks : List (Nat × Nat)) (h bn : Nat) :
    (h, bn) ∈ clearPending n tasks ↔ ((h, bn) ∈ tasks ∧ n < bn + staleThreshold) := by
  unfold clearPending
  rw [List.mem_filter]
  refine and_congr_right fun _ => ?_
  simp only []
  split
  · rename_i hle
    simp only [Bool.false_eq_true, false_iff]
    omega
  · rename_i hgt
    simp only [true_iff]
    omega

/-- C9: `peerSet.Register` fails with the already-registered error when the
id is present (and the set is open), with the closed error once `Close` has
run; `Unregister` fails with the not-registered error when the id is absent;
in every error case the peer map is returned unchanged. -/
theorem peerSet_error_cases (ps : PeerSet) (id pdata : Nat) :
    (ps.closed = true → psRegister ps id pdata = (some .errClosed, ps))
    ∧ (ps.closed = false → (ps.peers.lookup id).isSome = true →
        psRegister ps id pdata = (some .errAlreadyRegistered, ps))
    ∧ ((ps.peers.lookup id).isSome = false →
        psUnregister ps id = (some .errNotRegistered, ps))
    ∧ psRegister (psClose ps) id pdata = (some .errClosed, psClose ps) := by
  refine ⟨fun hc => ?_, fun hc hl => ?_, fun hl => ?_, ?_⟩
  · simp [psRegister, hc]
  · simp [psRegister, hc, hl]
  · simp [psUnregister, hl]
  · simp [psRegister, psClose]

/-- C9 witness: on the concrete one-peer open set, re-registering the same
id fails with the already-registered error and leaves the set unchanged. -/
theorem peerSet_error_cases_witness :
    ({ peers := [(1, 0)], closed := false } : PeerSet).closed = false
    ∧ (({ peers := [(1, 0)], closed := false } : PeerSet).peers.lookup 1).isSome = true
    ∧ psRegister { peers := [(1, 0)], closed := false } 1 7
        = (some .errAlreadyRegistered, { peers := [(1, 0)], closed := false }) :=
  ⟨by decide, by decide,
    (peerSet_error_cases { peers := [(1, 0)], closed := false } 1 7).2.1
      (by decide) (by decide)⟩

/-- C8 counterexample: with an Istanbul engine (the branch the worker takes
when its engine implements `consensus.Istanbul`), `commitNewWork` keeps the
requested timestamp unchanged, so requesting timestamp 3 against a parent
whose timestamp is 5 builds a candidate header whose timestamp is not
strictly greater than the parent's. -/
theorem commitNewWork_timestamp_counterexample :
    ¬ ((⟨0, 0, 5⟩ : ParentBlock).time
        < (commitNewWorkHeader true (fun _ => 0) ⟨0, 0, 5⟩ 3).time) := by
  decide

/-- C8 (amended): the candidate header always takes the chain head's hash as
parent hash, the head's number plus one, and the gas limit computed by
`CalcGasLimit`; the timestamp is strictly greater than the parent's whenever
the engine is not Istanbul (the branch that enforces monotonicity). -/
theorem commitNewWork_header_fields (isIstanbul : Bool)
    (calcGasLimit : ParentBlock → Nat) (parent : ParentBlock) (timestamp : Int) :
    (commitNewWorkHeader isIstanbul calcGasLimit parent timestamp).parentHash = parent.hash
    ∧ (commitNewWorkHeader isIstanbul calcGasLimit parent timestamp).number = parent.number + 1
    ∧ (commitNewWorkHeader isIstanbul calcGasLimit parent timestamp).gasLimit = calcGasLimit parent
    ∧ (isIstanbul = false →
        parent.time < (commitNewWorkHeader isIstanbul calcGasLimit parent timestamp).time) := by
  refine ⟨rfl, rfl, rfl, fun hni => ?_⟩
  simp only [commitNewWorkHeader, hni, Bool.false_eq_true, if_false]
  split
  · omega
  · omega

/-- C8 witness: the amended statement at a concrete non-Istanbul input. -/
theorem commitNewWork_header_fields_witness :
    (false = false)
    ∧ (⟨1, 2, 5⟩ : ParentBlock).time
        < (commitNewWorkHeader false (fun _ => 9) ⟨1, 2, 5⟩ 3).time :=
  ⟨rfl, (commitNewWork_header_fields false (fun _ => 9) ⟨1, 2, 5⟩ 3).2.2.2 rfl⟩

/-- Helper: the increasing branch of `recalcRecommit` is the exponential
moving average recapped at the maximum, i.e. a `min`. -/
theorem recalcRecommit_true_eq (minNs prev target : ℚ) :
    recalcRecommit minNs prev target true
      = min (prev * (1 - intervalAdjustRatioQ)
          + intervalAdjustRatioQ * (target + intervalAdjustBiasQ)) maxRecommitNs := by
  unfold recalcRecommit
  simp only [if_true]
  split
  · rename_i hgt
    exact (min_eq_right (le_of_lt hgt)).symm
  · rename_i hle
    push_neg at hle
    exact (min_eq_left hle).symm

/-- Helper: the decreasing branch of `recalcRecommit` is the exponential
moving average recapped at the user minimum, i.e. a `max`. -/
theorem recalcRecommit_false_eq (minNs prev target : ℚ) :
    recalcRecommit minNs prev target false
      = max (prev * (1 - intervalAdjustRatioQ)
          + intervalAdjustRatioQ * (target - intervalAdjustBiasQ)) minNs := by
  unfold recalcRecommit
  simp only [Bool.false_eq_true, if_false]
  split
  · rename_i hlt
    exact (max_eq_right (le_of_lt hlt)).symm
  · rename_i hge
    push_neg at hge
    exact (max_eq_left hge).symm

/-- C7: a feedback adjustment computes the exponential moving average
`0.9 * previous + 0.1 * (target + bias)` for increases and
`0.9 * previous + 0.1 * (minimum - bias)` for decreases (clamped at the
15-second maximum, resp. the user minimum), and starting from any interval
in the closed range from the user minimum to the maximum, the adjusted
interval — with the increase target `prev / ratio` fed back by the
execution loop (ratio in [0.1, 1]) and the decrease target the user
minimum, as `newWorkLoop` passes them — stays in that range. -/
theorem recalcRecommit_ema_and_range (minNs prev target ratio : ℚ)
    (hmin0 : 0 ≤ minNs) (hminmax : minNs ≤ maxRecommitNs)
    (hlo : minNs ≤ prev) (hhi : prev ≤ maxRecommitNs) :
    recalcRecommit minNs prev target true
      = min (prev * (1 - 1 / 10) + (1 / 10) * (target + intervalAdjustBiasQ)) maxRecommitNs
    ∧ recalcRecommit minNs prev target false
      = max (prev * (1 - 1 / 10) + (1 / 10) * (target - intervalAdjustBiasQ)) minNs
    ∧ (1 / 10 ≤ ratio → ratio ≤ 1 →
        minNs ≤ recalcRecommit minNs prev (prev / ratio) true
        ∧ recalcRecommit minNs prev (prev / ratio) true ≤ maxRecommitNs)
    ∧ (minNs ≤ recalcRecommit minNs prev minNs false
        ∧ recalcRecommit minNs prev minNs false ≤ maxRecommitNs) := by
  have hbias : (0 : ℚ) ≤ intervalAdjustBiasQ := by norm_num [intervalAdjustBiasQ]
  refine ⟨recalcRecommit_true_eq minNs prev target, recalcRecommit_false_eq minNs prev target,
    fun hr1 hr2 => ?_, ?_⟩
  · have hrpos : (0 : ℚ) < ratio := lt_of_lt_of_le (by norm_num) hr1
    have hprev0 : (0 : ℚ) ≤ prev := le_trans hmin0 hlo
    have hdiv : prev ≤ prev / ratio := by
      rw [le_div_iff₀ hrpos]
      calc prev * ratio ≤ prev * 1 := mul_le_mul_of_nonneg_left hr2 hprev0
        _ = prev := mul_one prev
    rw [recalcRecommit_true_eq]
    constructor
    · refine le_min ?_ hminmax
      have : prev ≤ prev * (1 - intervalAdjustRatioQ)
          + intervalAdjustRatioQ * (prev / ratio + intervalAdjustBiasQ) := by
        unfold intervalAdjustRatioQ
        nlinarith [hdiv, hbias]
      exact le_trans hlo (le_trans this (le_refl _))
    · exact min_le_right _ _
  · rw [recalcRecommit_false_eq]
    constructor
    · exact le_max_right _ _
    · refine max_le ?_ hminmax
      unfold intervalAdjustRatioQ
      nlinarith [hbias, hhi, hminmax]

/-- C7 witness: the range invariant at a concrete feedback adjustment. -/
theorem recalcRecommit_ema_and_range_witness :
    ((0 : ℚ) ≤ 1000000000) ∧ ((1 : ℚ) / 10 ≤ 1 / 2)
    ∧ (1000000000 : ℚ) ≤ recalcRecommit 1000000000 2000000000 (2000000000 / (1 / 2)) true :=
  ⟨by norm_num, by norm_num,
    ((recalcRecommit_ema_and_range 1000000000 2000000000 0 (1 / 2)
        (by norm_num) (by norm_num [maxRecommitNs]) (by norm_num)
        (by norm_num [maxRecommitNs])).2.2.1 (by norm_num) (by norm_num)).1⟩

/-- C6: the task loop skips a received task whose seal-hash equals the
previous one (state fully unchanged: not registered in the pending table,
not submitted to `Seal`); after any round the remembered hash is the
received task's seal-hash; a processed task is registered in the pending
table under its seal-hash exactly when its block has at least one
transaction or empty-block production is configured on, and is always
submitted to `Seal`. -/
theorem taskLoop_dedup_and_register (produceEmpty : Bool) (st : TaskLoopState)
    (t : SealTask) :
    (some t.sealHash = st.prev → taskLoopStep produceEmpty st t = st)
    ∧ (taskLoopStep produceEmpty st t).prev = some t.sealHash
    ∧ (some t.sealHash ≠ st.prev →
        ((taskLoopStep produceEmpty st t).pending = (t.sealHash, t) :: st.pending
            ↔ (1 ≤ t.txCount ∨ produceEmpty = true))
        ∧ (¬ (1 ≤ t.txCount ∨ produceEmpty = true) →
            (taskLoopStep produceEmpty st t).pending = st.pending)
        ∧ (taskLoopStep produceEmpty st t).sealed = st.sealed ++ [t.sealHash]) := by
  unfold taskLoopStep
  split
  · rename_i hdup
    exact ⟨fun _ => rfl, hdup.symm, fun hne => absurd hdup hne⟩
  · rename_i hne
    refine ⟨fun hd => absurd hd hne, ?_, fun _ => ?_⟩
    · split <;> rfl
    · have hcond : ((t.txCount != 0) || produceEmpty) = true
          ↔ (1 ≤ t.txCount ∨ produceEmpty = true) := by
        simp only [Bool.or_eq_true, bne_iff_ne, ne_eq]
        constructor
        · rintro (h0 | hp)
          · exact Or.inl (Nat.one_le_iff_ne_zero.mpr h0)
          · exact Or.inr hp
        · rintro (h1 | hp)
          · exact Or.inl (Nat.one_le_iff_ne_zero.mp h1)
          · exact Or.inr hp
      split
      · rename_i hb
        refine ⟨⟨fun _ => hcond.mp hb, fun _ => rfl⟩, fun hnc => absurd (hcond.mp hb) hnc, rfl⟩
      · rename_i hb
        have hnc : ¬ (1 ≤ t.txCount ∨ produceEmpty = true) := fun hc =>
          hb (hcond.mpr hc)
        refine ⟨⟨fun heq => ?_, fun hc => absurd hc hnc⟩, fun _ => rfl, rfl⟩
        exact absurd heq.symm (List.cons_ne_self _ _)

/-- C6 witness: a concrete processed empty-block task with empty-block
production off is not registered in the pending table. -/
theorem taskLoop_dedup_and_register_witness :
    (some (5 : Nat) ≠ (none : Option Nat))
    ∧ (taskLoopStep false { prev := none, pending := [], sealed := [] } ⟨5, 0⟩).pending
        = ({ prev := none, pending := [], sealed := [] } : TaskLoopState).pending :=
  ⟨by decide,
    ((taskLoop_dedup_and_register false { prev := none, pending := [], sealed := [] }
        ⟨5, 0⟩).2.2 (by decide)).2.1 (by decide)⟩

/-- C5: a block received on the result channel is dropped with nothing
written exactly when it is nil, already in the chain by hash and number, or
has no pending task under its seal-hash; otherwise what reaches
`WriteBlockWithState` is the received block together with the matching
task's receipts in which every log's block-hash field has been set to the
received block's hash. -/
theorem resultLoop_drop_and_patch (sealHashOf : BlockR → Nat)
    (hasBlock : Nat → Nat → Bool) (pending : List (Nat × TaskR))
    (block? : Option BlockR) :
    (handleResult sealHashOf hasBlock pending block? = none ↔
      (block? = none ∨ ∃ b, block? = some b ∧
        (hasBlock b.hash b.number = true ∨ pending.lookup (sealHashOf b) = none)))
    ∧ (∀ b task, block? = some b → hasBlock b.hash b.number = false →
        pending.lookup (sealHashOf b) = some task →
        handleResult sealHashOf hasBlock pending block?
          = some (b, patchReceipts b.hash task.receipts)
        ∧ ∀ r ∈ patchReceipts b.hash task.receipts, ∀ l ∈ r.logs,
            l.blockHash = b.hash) := by
  constructor
  · cases block? with
    | none => simp [handleResult]
    | some b =>
      cases hhb : hasBlock b.hash b.number with
      | true =>
        constructor
        · intro _
          exact Or.inr ⟨b, rfl, Or.inl hhb⟩
        · intro _
          simp [handleResult, hhb]
      | false =>
        cases hlk : pending.lookup (sealHashOf b) with
        | none =>
          constructor
          · intro _
            exact Or.inr ⟨b, rfl, Or.inr hlk⟩
          · intro _
            simp [handleResult, hhb, hlk]
        | some task =>
          constructor
          · intro hres
            rw [show handleResult sealHashOf hasBlock pending (some b)
                  = some (b, patchReceipts b.hash task.receipts) from by
                simp [handleResult, hhb, hlk]] at hres
            exact absurd hres (by simp)
          · rintro (hnone | ⟨b', hb', hcond⟩)
            · exact absurd hnone (by simp)
            · obtain rfl : b = b' := Option.some.inj hb'
              rcases hcond with h1 | h2
              · rw [hhb] at h1
                exact absurd h1 (by decide)
              · rw [hlk] at h2
                exact absurd h2 (by simp)
  · rintro b task rfl hhb hlk
    refine ⟨by simp [handleResult, hhb, hlk], ?_⟩
    intro r hr l hl
    simp only [patchReceipts, List.mem_map] at hr
    obtain ⟨r0, _, rfl⟩ := hr
    simp only [List.mem_map] at hl
    obtain ⟨l0, _, rfl⟩ := hl
    rfl

/-- C5 witness: a concrete non-dropped block is written with its hash
patched into the task's receipt logs. -/
theorem resultLoop_drop_and_patch_witness :
    ((fun _ _ => false) 9 4 = false)
    ∧ ([(3, ⟨[⟨[⟨0, 11⟩]⟩]⟩)] : List (Nat × TaskR)).lookup ((fun _ => 3) (⟨9, 4⟩ : BlockR))
        = some ⟨[⟨[⟨0, 11⟩]⟩]⟩
    ∧ handleResult (fun _ => 3) (fun _ _ => false) [(3, ⟨[⟨[⟨0, 11⟩]⟩]⟩)] (some ⟨9, 4⟩)
        = some (⟨9, 4⟩, patchReceipts 9 [⟨[⟨0, 11⟩]⟩]) :=
  ⟨rfl, by decide,
    ((resultLoop_drop_and_patch (fun _ => 3) (fun _ _ => false) [(3, ⟨[⟨[⟨0, 11⟩]⟩]⟩)]
        (some ⟨9, 4⟩)).2 ⟨9, 4⟩ ⟨[⟨[⟨0, 11⟩]⟩]⟩ rfl rfl (by decide)).1⟩

/-- Helper: a fixed-width big-endian encoding has exactly its width. -/
theorem beBytes_length (w : Nat) : ∀ n, (beBytes w n).length = w := by
  induction w with
  | zero => intro n; rfl
  | succ w ih =>
    intro n
    simp [beBytes, ih]

/-- Helper: the big-endian value of a byte string extended by one byte. -/
theorem decodeBE_append_singleton (bs : List Nat) (b : Nat) :
    decodeBE (bs ++ [b]) = decodeBE bs * 256 + b := by
  simp [decodeBE, List.foldl_append]

/-- Helper: decoding inverts the fixed-width big-endian encoding modulo
the width's range. -/
theorem decodeBE_beBytes (w : Nat) : ∀ n, decodeBE (beBytes w n) = n % 256 ^ w := by
  induction w with
  | zero => intro n; simp [beBytes, decodeBE, Nat.mod_one]
  | succ w ih =>
    intro n
    rw [beBytes, decodeBE_append_singleton, ih, pow_succ', Nat.mod_mul]
    ring

/-- Helper: leading zero bytes do not change the big-endian value. -/
theorem decodeBE_replicate_zero_append (k : Nat) (bs : List Nat) :
    decodeBE (List.replicate k 0 ++ bs) = decodeBE bs := by
  unfold decodeBE
  rw [List.foldl_append]
  have hz : List.foldl (fun a b => a * 256 + b) 0 (List.replicate k 0) = 0 := by
    induction k with
    | zero => rfl
    | succ k ih => simpa [List.replicate_succ] using ih
  rw [hz]

/-- Helper: hashing a short byte string left-pads it with zeros. -/
theorem bytesToHash_small (bs : List Nat) (h : bs.length ≤ 32) :
    bytesToHash bs = List.replicate (32 - bs.length) 0 ++ bs := by
  simp [bytesToHash, h]

/-- Helper: a hash is 32 bytes long. -/
theorem bytesToHash_small_length (bs : List Nat) (h : bs.length ≤ 32) :
    (bytesToHash bs).length = 32 := by
  rw [bytesToHash_small bs h]
  simp
  omega

/-- Helper: left-padding with zeros preserves the big-endian value. -/
theorem decodeBE_bytesToHash (bs : List Nat) (h : bs.length ≤ 32) :
    decodeBE (bytesToHash bs) = decodeBE bs := by
  rw [bytesToHash_small bs h]
  exact decodeBE_replicate_zero_append _ bs

/-- C10: `MakeReturnBytes ret` is a 32-byte word encoding the constant 32,
then a 32-byte word encoding `ret`'s length, then `ret` zero-padded to the
next multiple of 32 bytes; its length is exactly `64 + 32 * ⌈len/32⌉` and
`ret` is recoverable from the output by reading the length word and taking
that many bytes of the data suffix. -/
theorem MakeReturnBytes_spec (ret : List Nat) (hlen : ret.length < 256 ^ 8) :
    (MakeReturnBytes ret).length = 64 + 32 * ((ret.length + 31) / 32)
    ∧ decodeBE ((MakeReturnBytes ret).take 32) = 32
    ∧ decodeBE (((MakeReturnBytes ret).drop 32).take 32) = ret.length
    ∧ (MakeReturnBytes ret).drop 64
        = ret ++ List.replicate (32 * ((ret.length + 31) / 32) - ret.length) 0
    ∧ ((MakeReturnBytes ret).drop 64).take ret.length = ret := by
  have hA : (bytesToHash (beBytes 4 32)).length = 32 :=
    bytesToHash_small_length _ (by rw [beBytes_length]; omega)
  have hB : (bytesToHash (beBytes 8 ret.length)).length = 32 :=
    bytesToHash_small_length _ (by rw [beBytes_length]; omega)
  have hds : (if ret.length % 32 ≠ 0 then ret.length + (32 - ret.length % 32)
      else ret.length) = 32 * ((ret.length + 31) / 32) := by
    split <;> omega
  have hMR : MakeReturnBytes ret
      = bytesToHash (beBytes 4 32) ++ (bytesToHash (beBytes 8 ret.length)
        ++ (ret ++ List.replicate (32 * ((ret.length + 31) / 32) - ret.length) 0)) := by
    unfold MakeReturnBytes
    rw [hds, List.append_assoc]
  refine ⟨?_, ?_, ?_, ?_, ?_⟩
  · rw [hMR]
    simp only [List.length_append, List.length_replicate, hA, hB]
    omega
  · rw [hMR, List.take_left' hA,
      decodeBE_bytesToHash _ (by rw [beBytes_length]; omega), decodeBE_beBytes]
    norm_num
  · rw [hMR, List.drop_left' hA, List.take_left' hB,
      decodeBE_bytesToHash _ (by rw [beBytes_length]; omega), decodeBE_beBytes]
    exact Nat.mod_eq_of_lt hlen
  · rw [hMR, show (64 : Nat) = 32 + 32 from rfl, ← List.drop_drop,
      List.drop_left' hA, List.drop_left' hB]
  · rw [hMR, show (64 : Nat) = 32 + 32 from rfl, ← List.drop_drop,
      List.drop_left' hA, List.drop_left' hB, List.take_left' rfl]

/-- C10 witness: the encoding of a concrete 3-byte string has length 96,
its two header words decode to 32 and 3, and the original bytes are
recovered from the data suffix. -/
theorem MakeReturnBytes_spec_witness :
    ([7, 8, 9] : List Nat).length < 256 ^ 8
    ∧ decodeBE (((MakeReturnBytes [7, 8, 9]).drop 32).take 32) = 3 :=
  ⟨by norm_num, (MakeReturnBytes_spec [7, 8, 9] (by norm_num)).2.2.1⟩

/-- Helper: the transactions of a non-empty pending set. -/
theorem txqAllTxs_cons (q : AccountTxs) (qs : TxQueues) :
    txqAllTxs (q :: qs) = q.first :: (q.rest ++ txqAllTxs qs) := by
  simp [txqAllTxs]

/-- Helper: Shift only removes transactions from the pending set. -/
theorem txqShift_subset (txs : TxQueues) :
    ∀ t ∈ txqAllTxs (txqShift txs), t ∈ txqAllTxs txs := by
  intro t ht
  cases txs with
  | nil => simpa [txqShift] using ht
  | cons q qs =>
    rw [txqAllTxs_cons, List.mem_cons, List.mem_append]
    cases hr : q.rest with
    | nil =>
      simp only [txqShift, hr] at ht
      exact Or.inr (Or.inr ht)
    | cons t2 ts2 =>
      simp only [txqShift, hr, txqAllTxs_cons, List.mem_cons, List.mem_append] at ht
      rcases ht with h1 | h2 | h3
      · exact Or.inr (Or.inl (by rw [h1]; exact List.mem_cons_self _ _))
      · exact Or.inr (Or.inl (List.mem_cons_of_mem _ h2))
      · exact Or.inr (Or.inr h3)

/-- Helper: Pop only removes transactions from the pending set. -/
theorem txqPop_subset (txs : TxQueues) :
    ∀ t ∈ txqAllTxs (txqPop txs), t ∈ txqAllTxs txs := by
  intro t ht
  cases txs with
  | nil => simpa [txqPop] using ht
  | cons q qs =>
    rw [txqAllTxs_cons, List.mem_cons, List.mem_append]
    simp only [txqPop] at ht
    exact Or.inr (Or.inr ht)

/-- Helper: whichever of Shift and Pop the error switch picks, the pending
set only shrinks. -/
theorem nextQueues_subset (res : ApplyRes) (txs : TxQueues) :
    ∀ t ∈ txqAllTxs (nextQueues res txs), t ∈ txqAllTxs txs := by
  rcases res with g | ⟨e, g⟩
  · exact txqShift_subset txs
  · cases e
    · exact txqPop_subset txs
    · exact txqShift_subset txs
    · exact txqPop_subset txs
    · exact txqShift_subset txs

/-- Helper: a peeked transaction is one of the pending set. -/
theorem txqPeek_mem (txs : TxQueues) (tx : Tx) (h : txqPeek txs = some tx) :
    tx ∈ txqAllTxs txs := by
  cases txs with
  | nil => cases h
  | cons q qs =>
    simp only [txqPeek, Option.some.injEq] at h
    subst h
    rw [txqAllTxs_cons]
    exact List.mem_cons_self _ _

/-- Helper: one attempted transaction is appended to the trace. -/
theorem nextEnv_attempted (res : ApplyRes) (tx : Tx) (env : CommitEnv) :
    (nextEnv res tx env).attempted = env.attempted ++ [(tx, res)] := by
  rcases res with g | ⟨e, g⟩ <;> rfl

/-- Helper: committed transactions after one step are the old ones plus at
most the attempted one. -/
theorem nextEnv_txs_mem (res : ApplyRes) (tx : Tx) (env : CommitEnv) :
    ∀ q ∈ (nextEnv res tx env).txs, q ∈ env.txs ∨ q = tx := by
  rcases res with g | ⟨e, g⟩
  · intro q hq
    simp only [nextEnv] at hq
    rcases List.mem_append.mp hq with h | h
    · exact Or.inl h
    · exact Or.inr (List.mem_singleton.mp h)
  · intro q hq
    exact Or.inl hq

/-- Helper: a failed transaction commits nothing. -/
theorem nextEnv_fail_txs (e : TxErr) (g : Nat) (tx : Tx) (env : CommitEnv) :
    (nextEnv (.fail e g) tx env).txs = env.txs := rfl

/-- Helper: gas pool after a failed transaction. -/
theorem nextEnv_fail_gasPool (e : TxErr) (g : Nat) (tx : Tx) (env : CommitEnv) :
    (nextEnv (.fail e g) tx env).gasPool = env.gasPool - g := rfl

/-- Helper: the break path does not change the attempt trace. -/
theorem commitFinish_snd_attempted (ir : Option (Nat → Nat)) (env : CommitEnv) :
    ((commitFinish ir env).2).attempted = env.attempted := by
  unfold commitFinish
  split <;> rfl

/-- Helper: the break path does not change the committed transactions. -/
theorem commitFinish_snd_txs (ir : Option (Nat → Nat)) (env : CommitEnv) :
    ((commitFinish ir env).2).txs = env.txs := by
  unfold commitFinish
  split <;> rfl

/-- Helper: the attempt trace grows monotonically along the loop. -/
theorem commitLoop_attempted_prefix (gl : Nat) (ap : List Tx → Nat → Tx → ApplyRes)
    (ir : Option (Nat → Nat)) :
    ∀ fuel iter txs env, ∃ rest,
      ((commitLoop gl ap ir fuel iter txs env).2).attempted = env.attempted ++ rest := by
  intro fuel
  induction fuel with
  | zero =>
    intro iter txs env
    exact ⟨[], by simp [commitLoop]⟩
  | succ fuel ih =>
    intro iter txs env
    simp only [commitLoop]
    split
    · refine ⟨[], ?_⟩
      split <;> simp
    · split
      · exact ⟨[], by rw [commitFinish_snd_attempted]; simp⟩
      · split
        · exact ⟨[], by rw [commitFinish_snd_attempted]; simp⟩
        · rename_i tx heq
          obtain ⟨r, hr⟩ := ih (iter + 1) (nextQueues (ap env.txs env.gasPool tx) txs)
            (nextEnv (ap env.txs env.gasPool tx) tx env)
          exact ⟨(tx, ap env.txs env.gasPool tx) :: r, by rw [hr, nextEnv_attempted]; simp⟩

/-- Helper: everything the loop attempts or commits was either already
recorded in the environment or drawn from the pending set it was given. -/
theorem commitLoop_mem (gl : Nat) (ap : List Tx → Nat → Tx → ApplyRes)
    (ir : Option (Nat → Nat)) :
    ∀ fuel iter txs env,
      (∀ p ∈ ((commitLoop gl ap ir fuel iter txs env).2).attempted,
          p ∈ env.attempted ∨ p.1 ∈ txqAllTxs txs)
      ∧ (∀ q ∈ ((commitLoop gl ap ir fuel iter txs env).2).txs,
          q ∈ env.txs ∨ q ∈ txqAllTxs txs) := by
  intro fuel
  induction fuel with
  | zero =>
    intro iter txs env
    constructor
    · intro p hp
      exact Or.inl hp
    · intro q hq
      exact Or.inl hq
  | succ fuel ih =>
    intro iter txs env
    simp only [commitLoop]
    split
    · constructor
      · intro p hp
        refine Or.inl ?_
        revert hp
        split <;> exact fun hp => hp
      · intro q hq
        refine Or.inl ?_
        revert hq
        split <;> exact fun hq => hq
    · split
      · constructor
        · intro p hp
          rw [commitFinish_snd_attempted] at hp
          exact Or.inl hp
        · intro q hq
          rw [commitFinish_snd_txs] at hq
          exact Or.inl hq
      · split
        · constructor
          · intro p hp
            rw [commitFinish_snd_attempted] at hp
            exact Or.inl hp
          · intro q hq
            rw [commitFinish_snd_txs] at hq
            exact Or.inl hq
        · rename_i tx heq
          constructor
          · intro p hp
            rcases (ih (iter + 1) (nextQueues (ap env.txs env.gasPool tx) txs)
                (nextEnv (ap env.txs env.gasPool tx) tx env)).1 p hp with h1 | h2
            · rw [nextEnv_attempted] at h1
              rcases List.mem_append.mp h1 with ha | hb
              · exact Or.inl ha
              · rw [List.mem_singleton.mp hb]
                exact Or.inr (txqPeek_mem txs tx heq)
            · exact Or.inr (nextQueues_subset _ txs p.1 h2)
          · intro q hq
            rcases (ih (iter + 1) (nextQueues (ap env.txs env.gasPool tx) txs)
                (nextEnv (ap env.txs env.gasPool tx) tx env)).2 q hq with h1 | h2
            · rcases nextEnv_txs_mem _ tx env q h1 with ha | hb
              · exact Or.inl ha
              · rw [hb]
                exact Or.inr (txqPeek_mem txs tx heq)
            · exact Or.inr (nextQueues_subset _ txs q h2)

/-- Helper: when the flag is clear, gas suffices and a transaction is
pending, one loop iteration applies it and recurses on the updated state. -/
theorem commitLoop_exec_step (gl : Nat) (ap : List Tx → Nat → Tx → ApplyRes)
    (ir : Option (Nat → Nat)) (fuel iter : Nat) (txs : TxQueues) (env : CommitEnv)
    (tx : Tx) (hflag : flagAt ir iter = commitInterruptNone)
    (hgas : ¬ env.gasPool < TxGas) (hpeek : txqPeek txs = some tx) :
    commitLoop gl ap ir (fuel + 1) iter txs env
      = commitLoop gl ap ir fuel (iter + 1)
          (nextQueues (ap env.txs env.gasPool tx) txs)
          (nextEnv (ap env.txs env.gasPool tx) tx env) := by
  simp only [commitLoop]
  rw [if_neg (by simp [hflag]), if_neg hgas, hpeek]

/-- Helper: under the same conditions, the pending best transaction is the
next one recorded in the attempt trace. -/
theorem commitLoop_attempts_head (gl : Nat) (ap : List Tx → Nat → Tx → ApplyRes)
    (ir : Option (Nat → Nat)) (fuel iter : Nat) (txs : TxQueues) (env : CommitEnv)
    (tx : Tx) (hflag : flagAt ir iter = commitInterruptNone)
    (hgas : ¬ env.gasPool < TxGas) (hpeek : txqPeek txs = some tx) :
    ∃ rest, ((commitLoop gl ap ir (fuel + 1) iter txs env).2).attempted
      = env.attempted ++ (tx, ap env.txs env.gasPool tx) :: rest := by
  rw [commitLoop_exec_step gl ap ir fuel iter txs env tx hflag hgas hpeek]
  obtain ⟨r, hr⟩ := commitLoop_attempted_prefix gl ap ir fuel (iter + 1)
    (nextQueues (ap env.txs env.gasPool tx) txs)
    (nextEnv (ap env.txs env.gasPool tx) tx env)
  exact ⟨r, by rw [hr, nextEnv_attempted]; simp⟩

/-- Helper: in a well-formed pending set no transaction of the tail queues
is from the head queue's account. -/
theorem txqWF_notin_tail (q : AccountTxs) (qs : TxQueues) (hwf : txqWF (q :: qs)) :
    ∀ t ∈ txqAllTxs qs, t.sender ≠ q.account := by
  obtain ⟨hsend, hpw⟩ := hwf
  intro t ht
  simp only [txqAllTxs, List.mem_flatMap] at ht
  obtain ⟨q', hq', ht'⟩ := ht
  have hacc : q'.account ≠ q.account := by
    have hr := (List.pairwise_cons.mp hpw).1 q' hq'
    exact fun h => hr h.symm
  have hts : t.sender = q'.account := by
    have h2 := hsend q' (List.mem_cons_of_mem _ hq')
    rcases List.mem_cons.mp ht' with rfl | hmem
    · exact h2.1
    · exact h2.2 t hmem
  rw [hts]
  exact hacc

/-- C1: in one building cycle, when the best transaction of account `A`
fails with nonce-too-high the whole of `A`'s queue is popped — nothing else
from `A` is attempted or committed for the rest of the cycle; when it fails
with nonce-too-low only that transaction is skipped, and (the flag still
clear and gas sufficing) the very next transaction attempted is `A`'s next
queued one. -/
theorem commitTxs_nonce_policy (gl : Nat) (ap : List Tx → Nat → Tx → ApplyRes)
    (ir : Option (Nat → Nat)) (fuel iter : Nat) (A : Nat) (t : Tx) (ts : List Tx)
    (qs : TxQueues) (env : CommitEnv) (g : Nat)
    (hwf : txqWF ({ account := A, first := t, rest := ts } :: qs))
    (hflag : flagAt ir iter = commitInterruptNone)
    (hgas : ¬ env.gasPool < TxGas) :
    (ap env.txs env.gasPool t = .fail .nonceTooHigh g →
      (∀ p ∈ ((commitLoop gl ap ir (fuel + 1 + 1) iter
          ({ account := A, first := t, rest := ts } :: qs) env).2).attempted,
        p ∈ env.attempted ∨ p = (t, ApplyRes.fail .nonceTooHigh g) ∨ p.1.sender ≠ A)
      ∧ (∀ q ∈ ((commitLoop gl ap ir (fuel + 1 + 1) iter
          ({ account := A, first := t, rest := ts } :: qs) env).2).txs,
        q ∈ env.txs ∨ q.sender ≠ A))
    ∧ (∀ t2 ts2, ts = t2 :: ts2 →
        ap env.txs env.gasPool t = .fail .nonceTooLow g →
        flagAt ir (iter + 1) = commitInterruptNone →
        ¬ env.gasPool - g < TxGas →
        t2.sender = A ∧
        ∃ rest, ((commitLoop gl ap ir (fuel + 1 + 1) iter
            ({ account := A, first := t, rest := ts } :: qs) env).2).attempted
          = env.attempted ++ (t, ApplyRes.fail .nonceTooLow g)
              :: (t2, ap env.txs (env.gasPool - g) t2) :: rest) := by
  have hpeek : txqPeek ({ account := A, first := t, rest := ts } :: qs) = some t := rfl
  constructor
  · intro hres
    rw [commitLoop_exec_step gl ap ir (fuel + 1) iter _ env t hflag hgas hpeek, hres]
    have hq : nextQueues (ApplyRes.fail .nonceTooHigh g)
        ({ account := A, first := t, rest := ts } :: qs) = qs := rfl
    rw [hq]
    have hnot := txqWF_notin_tail _ qs hwf
    constructor
    · intro p hp
      rcases (commitLoop_mem gl ap ir (fuel + 1) (iter + 1) qs
          (nextEnv (ApplyRes.fail .nonceTooHigh g) t env)).1 p hp with h1 | h2
      · rw [nextEnv_attempted] at h1
        rcases List.mem_append.mp h1 with ha | hb
        · exact Or.inl ha
        · exact Or.inr (Or.inl (List.mem_singleton.mp hb))
      · exact Or.inr (Or.inr (hnot p.1 h2))
    · intro q hq2
      rcases (commitLoop_mem gl ap ir (fuel + 1) (iter + 1) qs
          (nextEnv (ApplyRes.fail .nonceTooHigh g) t env)).2 q hq2 with h1 | h2
      · rw [nextEnv_fail_txs] at h1
        exact Or.inl h1
      · exact Or.inr (hnot q h2)
  · rintro t2 ts2 rfl hres hflag2 hgas2
    refine ⟨(hwf.1 _ (List.mem_cons_self _ _)).2 t2 (List.mem_cons_self _ _), ?_⟩
    rw [commitLoop_exec_step gl ap ir (fuel + 1) iter _ env t hflag hgas hpeek, hres]
    have hq : nextQueues (ApplyRes.fail .nonceTooLow g)
        ({ account := A, first := t, rest := t2 :: ts2 } :: qs)
        = { account := A, first := t2, rest := ts2 } :: qs := rfl
    rw [hq]
    obtain ⟨r, hr⟩ := commitLoop_attempts_head gl ap ir fuel (iter + 1)
      ({ account := A, first := t2, rest := ts2 } :: qs)
      (nextEnv (ApplyRes.fail .nonceTooLow g) t env) t2 hflag2
      (by rw [nextEnv_fail_gasPool]; exact hgas2) rfl
    refine ⟨r, ?_⟩
    rw [hr, nextEnv_attempted, nextEnv_fail_txs, nextEnv_fail_gasPool]
    simp

/-- C1 witness: a concrete two-account pending set where account 1's first
transaction is nonce-too-high; nothing else attempted in the cycle is from
account 1. -/
theorem commitTxs_nonce_policy_witness :
    txqWF [{ account := 1, first := ⟨1, 5⟩, rest := [⟨1, 6⟩] },
           { account := 2, first := ⟨2, 0⟩, rest := [] }]
    ∧ ∀ p ∈ ((commitLoop 100000
        (fun _ _ tx => if tx.sender = 1 then ApplyRes.fail .nonceTooHigh 0 else ApplyRes.ok 21000)
        none 2 0
        [{ account := 1, first := ⟨1, 5⟩, rest := [⟨1, 6⟩] },
         { account := 2, first := ⟨2, 0⟩, rest := [] }]
        { gasPool := 100000, txs := [], attempted := [], adjusts := [] }).2).attempted,
      p ∈ ([] : List (Tx × ApplyRes)) ∨ p = (⟨1, 5⟩, ApplyRes.fail .nonceTooHigh 0)
        ∨ p.1.sender ≠ 1 :=
  ⟨by decide,
    ((commitTxs_nonce_policy 100000
        (fun _ _ tx => if tx.sender = 1 then ApplyRes.fail .nonceTooHigh 0 else ApplyRes.ok 21000)
        none 0 0 1 ⟨1, 5⟩ [⟨1, 6⟩] [{ account := 2, first := ⟨2, 0⟩, rest := [] }]
        { gasPool := 100000, txs := [], attempted := [], adjusts := [] } 0
        (by decide) (by decide) (by decide)).1 (by decide)).1⟩

/-- C2 counterexample: with gas-limit-reached on account 1's first
transaction, the account's remaining queued transaction is neither attempted
nor committed in the cycle, contradicting the claim that it is kept and
still attempted. -/
theorem commitTxs_gasLimit_counterexample :
    ((commitTransactionsWithHeader 100000
        (fun _ _ tx => if tx.nonce = 0 then ApplyRes.fail .gasLimitReached 0 else ApplyRes.ok 21000)
        none [{ account := 1, first := ⟨1, 0⟩, rest := [⟨1, 1⟩] }]).2).attempted.map Prod.fst
      = [⟨1, 0⟩]
    ∧ (⟨1, 1⟩ : Tx) ∉ (((commitTransactionsWithHeader 100000
        (fun _ _ tx => if tx.nonce = 0 then ApplyRes.fail .gasLimitReached 0 else ApplyRes.ok 21000)
        none [{ account := 1, first := ⟨1, 0⟩, rest := [⟨1, 1⟩] }]).2).attempted.map Prod.fst)
    ∧ (⟨1, 1⟩ : Tx) ∉ ((commitTransactionsWithHeader 100000
        (fun _ _ tx => if tx.nonce = 0 then ApplyRes.fail .gasLimitReached 0 else ApplyRes.ok 21000)
        none [{ account := 1, first := ⟨1, 0⟩, rest := [⟨1, 1⟩] }]).2).txs := by
  decide

/-- C2 (amended): when executing a transaction fails with gas-limit-reached
(`core.ErrGasLimitReached`), the loop pops the whole account — exactly as
for nonce-too-high — so the same account's remaining queued transactions are
dropped and neither attempted nor committed in the same cycle. -/
theorem commitTxs_gasLimit_policy (gl : Nat) (ap : List Tx → Nat → Tx → ApplyRes)
    (ir : Option (Nat → Nat)) (fuel iter : Nat) (A : Nat) (t : Tx) (ts : List Tx)
    (qs : TxQueues) (env : CommitEnv) (g : Nat)
    (hwf : txqWF ({ account := A, first := t, rest := ts } :: qs))
    (hflag : flagAt ir iter = commitInterruptNone)
    (hgas : ¬ env.gasPool < TxGas)
    (hres : ap env.txs env.gasPool t = .fail .gasLimitReached g) :
    (∀ p ∈ ((commitLoop gl ap ir (fuel + 1 + 1) iter
        ({ account := A, first := t, rest := ts } :: qs) env).2).attempted,
      p ∈ env.attempted ∨ p = (t, ApplyRes.fail .gasLimitReached g) ∨ p.1.sender ≠ A)
    ∧ (∀ q ∈ ((commitLoop gl ap ir (fuel + 1 + 1) iter
        ({ account := A, first := t, rest := ts } :: qs) env).2).txs,
      q ∈ env.txs ∨ q.sender ≠ A) := by
  have hpeek : txqPeek ({ account := A, first := t, rest := ts } :: qs) = some t := rfl
  rw [commitLoop_exec_step gl ap ir (fuel + 1) iter _ env t hflag hgas hpeek, hres]
  have hq : nextQueues (ApplyRes.fail .gasLimitReached g)
      ({ account := A, first := t, rest := ts } :: qs) = qs := rfl
  rw [hq]
  have hnot := txqWF_notin_tail _ qs hwf
  constructor
  · intro p hp
    rcases (commitLoop_mem gl ap ir (fuel + 1) (iter + 1) qs
        (nextEnv (ApplyRes.fail .gasLimitReached g) t env)).1 p hp with h1 | h2
    · rw [nextEnv_attempted] at h1
      rcases List.mem_append.mp h1 with ha | hb
      · exact Or.inl ha
      · exact Or.inr (Or.inl (List.mem_singleton.mp hb))
    · exact Or.inr (Or.inr (hnot p.1 h2))
  · intro q hq2
    rcases (commitLoop_mem gl ap ir (fuel + 1) (iter + 1) qs
        (nextEnv (ApplyRes.fail .gasLimitReached g) t env)).2 q hq2 with h1 | h2
    · rw [nextEnv_fail_txs] at h1
      exact Or.inl h1
    · exact Or.inr (hnot q h2)

/-- C2 witness: the amended statement at the concrete counterexample
input. -/
theorem commitTxs_gasLimit_policy_witness :
    txqWF [{ account := 1, first := ⟨1, 0⟩, rest := [⟨1, 1⟩] }]
    ∧ ∀ p ∈ ((commitLoop 100000
        (fun _ _ tx => if tx.nonce = 0 then ApplyRes.fail .gasLimitReached 0 else ApplyRes.ok 21000)
        none 2 0 [{ account := 1, first := ⟨1, 0⟩, rest := [⟨1, 1⟩] }]
        { gasPool := 100000, txs := [], attempted := [], adjusts := [] }).2).attempted,
      p ∈ ([] : List (Tx × ApplyRes)) ∨ p = (⟨1, 0⟩, ApplyRes.fail .gasLimitReached 0)
        ∨ p.1.sender ≠ 1 :=
  ⟨by decide,
    (commitTxs_gasLimit_policy 100000
        (fun _ _ tx => if tx.nonce = 0 then ApplyRes.fail .gasLimitReached 0 else ApplyRes.ok 21000)
        none 0 0 1 ⟨1, 0⟩ [⟨1, 1⟩] []
        { gasPool := 100000, txs := [], attempted := [], adjusts := [] } 0
        (by decide) (by decide) (by decide) (by decide)).1⟩

/-- Helper: under a pool no larger than the limit, the resubmit ratio is the
consumed fraction of the gas limit floored at 0.1. -/
theorem resubmitRatio_eq_max (gl pool : Nat) (h : pool ≤ gl) :
    resubmitRatio gl pool = max (((gl : ℚ) - (pool : ℚ)) / (gl : ℚ)) (1 / 10) := by
  simp only [resubmitRatio]
  rw [Nat.cast_sub h]
  split
  · rename_i hlt
    exact (max_eq_right (le_of_lt hlt)).symm
  · rename_i hge
    push_neg at hge
    exact (max_eq_left hge).symm

/-- C4: when the interrupt flag holds a non-none value at the check, the
loop stops before executing any further transaction (attempt trace and
committed transactions unchanged) and returns true exactly when the flag is
the new-head value; when the flag is the resubmit value it additionally
emits one interval-increase adjustment whose ratio is the consumed fraction
of the header's gas limit floored at 0.1, and otherwise emits nothing. -/
theorem commitLoop_interrupt_behavior (gl : Nat) (ap : List Tx → Nat → Tx → ApplyRes)
    (ir : Option (Nat → Nat)) (fuel iter : Nat) (txs : TxQueues) (env : CommitEnv)
    (hne : flagAt ir iter ≠ commitInterruptNone)
    (hpool : env.gasPool ≤ gl) :
    ((commitLoop gl ap ir (fuel + 1) iter txs env).1 = true
        ↔ flagAt ir iter = commitInterruptNewHead)
    ∧ ((commitLoop gl ap ir (fuel + 1) iter txs env).2).attempted = env.attempted
    ∧ ((commitLoop gl ap ir (fuel + 1) iter txs env).2).txs = env.txs
    ∧ (flagAt ir iter = commitInterruptResubmit →
        ((commitLoop gl ap ir (fuel + 1) iter txs env).2).adjusts
          = env.adjusts
            ++ [⟨max (((gl : ℚ) - (env.gasPool : ℚ)) / (gl : ℚ)) (1 / 10), true⟩])
    ∧ (flagAt ir iter ≠ commitInterruptResubmit →
        ((commitLoop gl ap ir (fuel + 1) iter txs env).2).adjusts = env.adjusts) := by
  simp only [commitLoop, if_pos hne]
  refine ⟨by simp, ?_, ?_, fun h2 => ?_, fun h2 => ?_⟩
  · split <;> rfl
  · split <;> rfl
  · rw [if_pos h2, resubmitRatio_eq_max gl env.gasPool hpool]
  · rw [if_neg h2]

/-- C4 witness: a concrete resubmit interrupt at half-consumed gas. -/
theorem commitLoop_interrupt_behavior_witness :
    flagAt (some (fun _ => 2)) 0 ≠ commitInterruptNone
    ∧ (({ gasPool := 50, txs := [], attempted := [], adjusts := [] } : CommitEnv).gasPool ≤ 100)
    ∧ ((commitLoop 100 (fun _ _ _ => ApplyRes.ok 0) (some (fun _ => 2)) 1 0 []
        { gasPool := 50, txs := [], attempted := [], adjusts := [] }).1 = true
      ↔ flagAt (some (fun _ => 2)) 0 = commitInterruptNewHead) :=
  ⟨by decide, by decide,
    (commitLoop_interrupt_behavior 100 (fun _ _ _ => ApplyRes.ok 0) (some (fun _ => 2)) 0 0 []
        { gasPool := 50, txs := [], attempted := [], adjusts := [] }
        (by decide) (by decide)).1⟩
